import Mathlib

/-!
Verification of the probability-calibration core of the crop-vision
repository (`ai_model/confidence_calibration.py`), shallowly embedded in
Lean 4.  Probabilities and labels are modelled as exact rationals (the
metric engine performs only field arithmetic and comparisons); the
temperature-scaling path, which uses `log`/`exp`/`softmax`, is modelled
over the reals.  NumPy boolean masking of two same-shape arrays by a mask
computed from the first is modelled by zipping the row-major flattenings
and filtering on the first component, which is exactly the mask semantics
for aligned shapes (the precondition every claim assumes).
-/

/-! ## Metric engine (`_calculate_ece`, `_calculate_reliability`) -/

/-- Lower boundary of bin `i` out of `n_bins`: `np.linspace(0, 1, n_bins + 1)`
gives boundaries `i / n_bins` (source line 139). -/
def bin_lower (n_bins i : ℕ) : ℚ := (i : ℚ) / (n_bins : ℚ)

/-- Upper boundary of bin `i`: the next `linspace` boundary `(i + 1) / n_bins`
(source lines 140-141). -/
def bin_upper (n_bins i : ℕ) : ℚ := ((i : ℚ) + 1) / (n_bins : ℚ)

/-- Bin membership test of source line 146 / 168:
`np.logical_and(y_pred_proba >= bin_lower, y_pred_proba < bin_upper)`.
Every bin, including the last, uses a strict upper comparison. -/
def inBin (n_bins i : ℕ) (p : ℚ) : Bool :=
  decide (bin_lower n_bins i ≤ p) && decide (p < bin_upper n_bins i)

/-- Row-major flattening of the probability matrix paired with the aligned
label entries: the common index space on which the masks
`y_pred_proba[in_bin]` and `y_true[in_bin]` select (lines 150-151). -/
def flatPairs (P Y : List (List ℚ)) : List (ℚ × ℚ) :=
  P.flatten.zip Y.flatten

/-- Entry/label pairs falling in bin `i`: the elements selected by the
`in_bin` mask of line 146. -/
def binMembers (n_bins i : ℕ) (pairs : List (ℚ × ℚ)) : List (ℚ × ℚ) :=
  pairs.filter (fun q => inBin n_bins i q.1)

/-- Expected Calibration Error, source lines 136-154.  The loop accumulates
`bin_size * |bin_accuracy - bin_confidence|` over the `n_bins` bins and the
function returns `ece / len(y_pred_proba)`; `len` of a 2-D NumPy array is
its first dimension, the number N of rows. -/
def _calculate_ece (n_bins : ℕ) (P Y : List (List ℚ)) : ℚ :=
  let pairs := flatPairs P Y
  let ece := (List.range n_bins).foldl (fun ece i =>
    if 0 < (binMembers n_bins i pairs).length then
      ece + ((binMembers n_bins i pairs).length : ℚ) *
        |((binMembers n_bins i pairs).map Prod.snd).sum / ((binMembers n_bins i pairs).length : ℚ) -
         ((binMembers n_bins i pairs).map Prod.fst).sum / ((binMembers n_bins i pairs).length : ℚ)|
    else ece) 0
  ece / (P.length : ℚ)

/-- The three parallel lists built by `_calculate_reliability`
(source lines 163-183): only non-empty bins contribute an entry. -/
structure ReliabilityData where
  accuracies : List ℚ
  confidences : List ℚ
  bin_sizes : List ℕ
  deriving Repr, DecidableEq

/-- Reliability-diagram data, source lines 156-183: same binning as the ECE
(again with a strict upper comparison on every bin), appending
(accuracy, confidence, size) only when `bin_size > 0`. -/
def _calculate_reliability (n_bins : ℕ) (P Y : List (List ℚ)) : ReliabilityData :=
  (List.range n_bins).foldl (fun acc i =>
    if 0 < (binMembers n_bins i (flatPairs P Y)).length then
      { accuracies := acc.accuracies ++
          [((binMembers n_bins i (flatPairs P Y)).map Prod.snd).sum /
            ((binMembers n_bins i (flatPairs P Y)).length : ℚ)],
        confidences := acc.confidences ++
          [((binMembers n_bins i (flatPairs P Y)).map Prod.fst).sum /
            ((binMembers n_bins i (flatPairs P Y)).length : ℚ)],
        bin_sizes := acc.bin_sizes ++ [(binMembers n_bins i (flatPairs P Y)).length] }
    else acc) ⟨[], [], []⟩

/-- Per-bin contribution written the way the spec describes it:
`binCount * |binAccuracy - binConfidence|` for a non-empty bin, 0 otherwise. -/
def binContribution (n_bins i : ℕ) (pairs : List (ℚ × ℚ)) : ℚ :=
  if 0 < (binMembers n_bins i pairs).length then
    ((binMembers n_bins i pairs).length : ℚ) *
      |((binMembers n_bins i pairs).map Prod.snd).sum / ((binMembers n_bins i pairs).length : ℚ) -
       ((binMembers n_bins i pairs).map Prod.fst).sum / ((binMembers n_bins i pairs).length : ℚ)|
  else 0

/-- Total of the per-bin contributions, the numerator of every ECE variant. -/
def eceBinTotal (n_bins : ℕ) (P Y : List (List ℚ)) : ℚ :=
  ((List.range n_bins).map (fun i => binContribution n_bins i (flatPairs P Y))).sum

/-- Modelled from the claim wording of C1: the same bin total, but normalized
by the number of flattened entries (N * C for an aligned N-by-C matrix)
instead of the row count.  Used only to compare against `_calculate_ece`. -/
def eceClaimedNorm (n_bins : ℕ) (P Y : List (List ℚ)) : ℚ :=
  eceBinTotal n_bins P Y / ((flatPairs P Y).length : ℚ)

/-! ### Generic list lemmas used by the metric-engine proofs -/

theorem foldl_ite_add (g : ℕ → ℚ) (c : ℕ → Prop) [DecidablePred c] :
    ∀ (l : List ℕ) (a : ℚ),
      l.foldl (fun acc i => if c i then acc + g i else acc) a =
        a + (l.map (fun i => if c i then g i else 0)).sum := by
  intro l
  induction l with
  | nil => intro a; simp
  | cons x t ih =>
    intro a
    by_cases hx : c x <;> simp [hx, ih, add_assoc]

theorem sum_map_add_nat (l : List ℕ) (f g : ℕ → ℕ) :
    (l.map (fun i => f i + g i)).sum = (l.map f).sum + (l.map g).sum := by
  induction l with
  | nil => simp
  | cons x t ih => simp [ih]; omega

/-- The bins are pairwise disjoint: a value can satisfy the
`lower <= p < upper` test of at most one bin index below `n_bins`. -/
theorem inBin_det (n i j : ℕ) (p : ℚ) (hi : i < n) (hj : j < n)
    (h1 : inBin n i p = true) (h2 : inBin n j p = true) : i = j := by
  have hn : (0 : ℚ) < (n : ℚ) := by
    exact_mod_cast lt_of_le_of_lt (Nat.zero_le i) hi
  simp only [inBin, Bool.and_eq_true, decide_eq_true_eq, bin_lower, bin_upper] at h1 h2
  have hi1 : (i : ℚ) ≤ p * (n : ℚ) := (div_le_iff₀ hn).mp h1.1
  have hi2 : p * (n : ℚ) < (i : ℚ) + 1 := (lt_div_iff₀ hn).mp h1.2
  have hj1 : (j : ℚ) ≤ p * (n : ℚ) := (div_le_iff₀ hn).mp h2.1
  have hj2 : p * (n : ℚ) < (j : ℚ) + 1 := (lt_div_iff₀ hn).mp h2.2
  have c1 : i < j + 1 := by exact_mod_cast lt_of_le_of_lt hi1 hj2
  have c2 : j < i + 1 := by exact_mod_cast lt_of_le_of_lt hj1 hi2
  omega

theorem sum_map_eq_zero_nat (l : List ℕ) (f : ℕ → ℕ) (h : ∀ x ∈ l, f x = 0) :
    (l.map f).sum = 0 := by
  induction l with
  | nil => simp
  | cons x t ih =>
    simp [h x (by simp), ih (fun y hy => h y (by simp [hy]))]

/-- A 0/1 indicator that is 1 on at most one element of a duplicate-free
list sums to at most 1. -/
theorem indicator_sum_le_one (q : ℕ → Bool) (l : List ℕ)
    (hU : ∀ i ∈ l, ∀ j ∈ l, q i = true → q j = true → i = j) (hN : l.Nodup) :
    (l.map (fun i => if q i = true then 1 else 0)).sum ≤ 1 := by
  induction l with
  | nil => simp
  | cons x t ih =>
    have hxt : x ∉ t := (List.nodup_cons.mp hN).1
    have htN : t.Nodup := (List.nodup_cons.mp hN).2
    by_cases hx : q x = true
    · have hz : ∀ i ∈ t, (fun i => if q i = true then 1 else 0) i = 0 := by
        intro i hit
        have : q i = true → i = x := fun hqi =>
          hU i (by simp [hit]) x (by simp) hqi hx
        by_cases hqi : q i = true
        · exact absurd (this hqi ▸ hit) hxt
        · simp [hqi]
      simp [hx, sum_map_eq_zero_nat t _ hz]
    · have := ih (fun i hi j hj => hU i (by simp [hi]) j (by simp [hj])) htN
      simpa [hx] using this

theorem binMembers_cons_length (n i : ℕ) (x : ℚ × ℚ) (t : List (ℚ × ℚ)) :
    (binMembers n i (x :: t)).length =
      (if inBin n i x.1 = true then 1 else 0) + (binMembers n i t).length := by
  simp only [binMembers, List.filter_cons]
  split <;> simp <;> omega

/-- Because the bins are disjoint, the bin sizes sum to at most the number
of entries fed in (an inequality: entries can be dropped, see claim C2). -/
theorem binSizes_sum_le (n : ℕ) (pairs : List (ℚ × ℚ)) :
    ((List.range n).map (fun i => (binMembers n i pairs).length)).sum ≤ pairs.length := by
  induction pairs with
  | nil => simp [binMembers]
  | cons x t ih =>
    simp only [binMembers_cons_length, List.length_cons]
    rw [sum_map_add_nat]
    have hind : ((List.range n).map (fun i => if inBin n i x.1 = true then 1 else 0)).sum ≤ 1 := by
      apply indicator_sum_le_one
      · intro i hi j hj hqi hqj
        exact inBin_det n i j x.1 (List.mem_range.mp hi) (List.mem_range.mp hj) hqi hqj
      · exact List.nodup_range n
    omega

/-- Rewriting of the imperative ECE loop as the per-bin sum divided by the
row count; shared by the C1 and C3 theorems. -/
theorem ece_foldl_eq_sum (n : ℕ) (P Y : List (List ℚ)) :
    _calculate_ece n P Y = eceBinTotal n P Y / (P.length : ℚ) := by
  have h := foldl_ite_add
    (fun i => ((binMembers n i (flatPairs P Y)).length : ℚ) *
      |((binMembers n i (flatPairs P Y)).map Prod.snd).sum / ((binMembers n i (flatPairs P Y)).length : ℚ) -
       ((binMembers n i (flatPairs P Y)).map Prod.fst).sum / ((binMembers n i (flatPairs P Y)).length : ℚ)|)
    (fun i => 0 < (binMembers n i (flatPairs P Y)).length)
    (List.range n) 0
  simp only [_calculate_ece, eceBinTotal, binContribution]
  rw [h, zero_add]

theorem list_sum_le_length (l : List ℚ) (h : ∀ x ∈ l, x ≤ 1) : l.sum ≤ (l.length : ℚ) := by
  induction l with
  | nil => simp
  | cons x t ih =>
    simp only [List.sum_cons, List.length_cons]
    push_cast
    have h1 := h x (by simp)
    have h2 := ih (fun y hy => h y (by simp [hy]))
    linarith

theorem mean_mem_unit (l : List ℚ) (h : ∀ x ∈ l, 0 ≤ x ∧ x ≤ 1) :
    0 ≤ l.sum / (l.length : ℚ) ∧ l.sum / (l.length : ℚ) ≤ 1 := by
  rcases l with _ | ⟨x, t⟩
  · simp
  · have hlen : (0 : ℚ) < ((x :: t).length : ℚ) := by
      simp only [List.length_cons]
      positivity
    constructor
    · exact div_nonneg (List.sum_nonneg fun y hy => (h y hy).1) hlen.le
    · rw [div_le_one hlen]
      exact list_sum_le_length _ (fun y hy => (h y hy).2)

theorem binContribution_nonneg (n i : ℕ) (pairs : List (ℚ × ℚ)) :
    0 ≤ binContribution n i pairs := by
  unfold binContribution
  split
  · positivity
  · exact le_refl 0

theorem binContribution_le_size (n i : ℕ) (pairs : List (ℚ × ℚ))
    (hq : ∀ q ∈ pairs, (0 ≤ q.1 ∧ q.1 ≤ 1) ∧ (q.2 = 0 ∨ q.2 = 1)) :
    binContribution n i pairs ≤ ((binMembers n i pairs).length : ℚ) := by
  unfold binContribution
  split
  · set mem := binMembers n i pairs with hm
    have hsub : ∀ q ∈ mem, q ∈ pairs := fun q hqm =>
      List.mem_of_mem_filter hqm
    have hacc := mean_mem_unit (mem.map Prod.snd) (by
      intro x hx
      obtain ⟨q, hqm, rfl⟩ := List.mem_map.mp hx
      rcases (hq q (hsub q hqm)).2 with h0 | h1
      · simp [h0]
      · simp [h1])
    have hconf := mean_mem_unit (mem.map Prod.fst) (by
      intro x hx
      obtain ⟨q, hqm, rfl⟩ := List.mem_map.mp hx
      exact (hq q (hsub q hqm)).1)
    simp only [List.length_map] at hacc hconf
    have habs : |(mem.map Prod.snd).sum / (mem.length : ℚ) -
        (mem.map Prod.fst).sum / (mem.length : ℚ)| ≤ 1 := by
      rw [abs_sub_le_iff]
      constructor <;> linarith [hacc.1, hacc.2, hconf.1, hconf.2]
    calc (mem.length : ℚ) * |(mem.map Prod.snd).sum / (mem.length : ℚ) -
          (mem.map Prod.fst).sum / (mem.length : ℚ)|
        ≤ (mem.length : ℚ) * 1 := by
          apply mul_le_mul_of_nonneg_left habs (by positivity)
      _ = (mem.length : ℚ) := mul_one _
  · positivity

theorem cast_sum_map (l : List ℕ) (f : ℕ → ℕ) :
    (l.map (fun i => ((f i : ℕ) : ℚ))).sum = (((l.map f).sum : ℕ) : ℚ) := by
  induction l with
  | nil => simp
  | cons x t ih => simp [ih]

/-- The numerator of the ECE is bounded by the number of entry/label pairs:
each bin contributes at most its size and the bins are disjoint. -/
theorem eceBinTotal_le (n : ℕ) (P Y : List (List ℚ))
    (hq : ∀ q ∈ flatPairs P Y, (0 ≤ q.1 ∧ q.1 ≤ 1) ∧ (q.2 = 0 ∨ q.2 = 1)) :
    eceBinTotal n P Y ≤ ((flatPairs P Y).length : ℚ) := by
  unfold eceBinTotal
  calc ((List.range n).map (fun i => binContribution n i (flatPairs P Y))).sum
      ≤ ((List.range n).map (fun i => ((binMembers n i (flatPairs P Y)).length : ℚ))).sum := by
        apply List.sum_le_sum
        intro i _
        exact binContribution_le_size n i (flatPairs P Y) hq
    _ = ((((List.range n).map (fun i => (binMembers n i (flatPairs P Y)).length)).sum : ℕ) : ℚ) := by
        rw [cast_sum_map]
    _ ≤ ((flatPairs P Y).length : ℚ) := by
        exact_mod_cast binSizes_sum_le n (flatPairs P Y)

theorem flatten_length_const (P : List (List ℚ)) (C : ℕ) (h : ∀ r ∈ P, r.length = C) :
    P.flatten.length = P.length * C := by
  induction P with
  | nil => simp
  | cons r t ih =>
    have hr := h r (by simp)
    have ht := ih (fun s hs => h s (by simp [hs]))
    simp only [List.flatten_cons, List.length_append, List.length_cons, hr, ht]
    ring

theorem flatPairs_entry_props (P Y : List (List ℚ))
    (hP : ∀ r ∈ P, ∀ v ∈ r, 0 ≤ v ∧ v ≤ 1) (hY : ∀ r ∈ Y, ∀ v ∈ r, v = 0 ∨ v = 1) :
    ∀ q ∈ flatPairs P Y, (0 ≤ q.1 ∧ q.1 ≤ 1) ∧ (q.2 = 0 ∨ q.2 = 1) := by
  intro q hq
  obtain ⟨a, b⟩ := q
  have hz := List.of_mem_zip hq
  obtain ⟨r1, hr1, ha⟩ := List.mem_flatten.mp hz.1
  obtain ⟨r2, hr2, hb⟩ := List.mem_flatten.mp hz.2
  exact ⟨hP r1 hr1 a ha, hY r2 hr2 b hb⟩

/-! ## Claims C1, C2, C3 -/

/-- Claim C1 (amended): for every probability matrix and aligned labels, the
ECE returned by the metric engine equals the sum over non-empty bins of
binCount * |binAccuracy - binConfidence| divided by the number of rows N
(which is what `len(y_pred_proba)` yields on a 2-D array), not by the
flattened entry count N * C. -/
theorem C1_ece_divides_by_rows (n : ℕ) (P Y : List (List ℚ)) :
    _calculate_ece n P Y = eceBinTotal n P Y / (P.length : ℚ) :=
  ece_foldl_eq_sum n P Y

/-- Claim C1, counterexample to the claim as stated: on the 1-by-2 matrix
[[0.9, 0.1]] with one-hot labels [[1, 0]] the code returns 0.2 / 1 = 1/5,
whereas normalizing by the flattened entry count N * C = 2 would give 1/10. -/
theorem C1_cex :
    _calculate_ece 15 [[9/10, 1/10]] [[1, 0]] = 1/5 ∧
    eceClaimedNorm 15 [[9/10, 1/10]] [[1, 0]] = 1/10 ∧
    _calculate_ece 15 [[9/10, 1/10]] [[1, 0]] ≠
      eceClaimedNorm 15 [[9/10, 1/10]] [[1, 0]] := by
  refine ⟨?_, ?_, ?_⟩ <;>
    norm_num [_calculate_ece, eceClaimedNorm, eceBinTotal, binContribution,
      flatPairs, binMembers, inBin, bin_lower, bin_upper,
      List.range_succ, List.filter_cons, List.filter_nil, List.filter_append,
      List.foldl_append, List.foldl_cons, List.foldl_nil, decide_eq_true_eq,
      abs_of_pos]

/-- Claim C2: the code violates the claim.  Every bin of the reliability
binning (and of the ECE) tests `lower <= p < upper` including the final bin,
so a probability exactly equal to 1.0 falls in no bin: on [[1.0, 0.0]] with
labels [[1, 0]] only the 0.0 entry is binned and the emitted bin sizes sum
to 1 although 2 entries were fed in. -/
theorem C2_boundary_entry_dropped :
    (_calculate_reliability 10 [[1, 0]] [[1, 0]]).bin_sizes.sum = 1 ∧
    (flatPairs [[(1 : ℚ), 0]] [[1, 0]]).length = 2 := by
  constructor <;>
    norm_num [_calculate_reliability, flatPairs, binMembers, inBin,
      bin_lower, bin_upper, List.range_succ, List.filter_cons, List.filter_nil,
      List.filter_append, List.foldl_append, List.foldl_cons, List.foldl_nil,
      decide_eq_true_eq]

/-- Claim C3 (amended): for valid inputs (N-by-C probability matrix with
entries in [0,1], aligned 0/1 labels) the ECE lies in [0, C] — not [0, 1]:
because the code normalizes the flattened-entry bin total by the row count N
only, the bound scales with the class count C. -/
theorem C3_ece_bounded_by_classes (P Y : List (List ℚ)) (C : ℕ)
    (hPC : ∀ r ∈ P, r.length = C)
    (hP : ∀ r ∈ P, ∀ v ∈ r, 0 ≤ v ∧ v ≤ 1)
    (hY : ∀ r ∈ Y, ∀ v ∈ r, v = 0 ∨ v = 1) :
    0 ≤ _calculate_ece 15 P Y ∧ _calculate_ece 15 P Y ≤ (C : ℚ) := by
  have heq := ece_foldl_eq_sum 15 P Y
  have hnn : 0 ≤ eceBinTotal 15 P Y := by
    apply List.sum_nonneg
    intro x hx
    obtain ⟨i, _, rfl⟩ := List.mem_map.mp hx
    exact binContribution_nonneg 15 i (flatPairs P Y)
  constructor
  · rw [heq]
    exact div_nonneg hnn (by positivity)
  · rcases Nat.eq_zero_or_pos P.length with h0 | hpos
    · have hPnil : P = [] := List.length_eq_zero.mp h0
      subst hPnil
      have hz : eceBinTotal 15 [] Y = 0 := by
        apply List.sum_eq_zero
        intro x hx
        obtain ⟨i, _, rfl⟩ := List.mem_map.mp hx
        simp [binContribution, binMembers, flatPairs]
      rw [heq, hz]
      simp
    · rw [heq, div_le_iff₀ (by exact_mod_cast hpos)]
      have h1 : eceBinTotal 15 P Y ≤ ((flatPairs P Y).length : ℚ) :=
        eceBinTotal_le 15 P Y (flatPairs_entry_props P Y hP hY)
      have h2 : (flatPairs P Y).length ≤ P.flatten.length := by
        simp only [flatPairs, List.length_zip]
        exact min_le_left _ _
      have h3 : P.flatten.length = P.length * C := flatten_length_const P C hPC
      have h4 : ((flatPairs P Y).length : ℚ) ≤ ((P.length * C : ℕ) : ℚ) := by
        exact_mod_cast h3 ▸ h2
      push_cast at h4
      nlinarith [h1, h4]

/-- Witness for C3 at the concrete valid input [[0.9, 0.1]] with one-hot
labels [[1, 0]] and C = 2. -/
theorem C3_witness :
    0 ≤ _calculate_ece 15 [[9/10, 1/10]] [[1, 0]] ∧
    _calculate_ece 15 [[9/10, 1/10]] [[1, 0]] ≤ ((2 : ℕ) : ℚ) :=
  C3_ece_bounded_by_classes [[9/10, 1/10]] [[1, 0]] 2
    (by intro r hr; rw [List.mem_singleton] at hr; subst hr; rfl)
    (by intro r hr; rw [List.mem_singleton] at hr; subst hr
        intro v hv; fin_cases hv <;> norm_num)
    (by intro r hr; rw [List.mem_singleton] at hr; subst hr
        intro v hv; fin_cases hv <;> norm_num)

/-! ## Rows, argmax, Platt scaler, Brier loop (claims C4, C5) -/

/-- NumPy max of a row (np.max along an axis): fold of max over the row.
NumPy raises on an empty row; the calibration paths only use non-empty rows,
and the 0 placeholder is never reached by any theorem below. -/
def npMaxRow : List ℚ → ℚ
  | [] => 0
  | h :: t => t.foldl max h

/-- np.argmax of a row: the first index attaining the maximum value. -/
def argmaxIdx (row : List ℚ) : ℕ :=
  row.findIdx (fun v => decide (v = npMaxRow row))

/-- Label half of prepare_calibration_data (source line 52):
`y_true_binary = np.argmax(y_val, axis=1)` — a 1-D vector of class indices,
not a one-hot matrix. -/
def prepare_labels (y_val : List (List ℚ)) : List ℕ :=
  y_val.map argmaxIdx

/-- Feature construction of platt_scaling (source line 85):
`y_pred_max = np.max(y_pred_proba, axis=1, keepdims=True)`. -/
def platt_features (P : List (List ℚ)) : List ℚ :=
  P.map npMaxRow

/-- Target construction of platt_scaling (source line 86): the second
argument of `lr.fit` is `np.argmax(y_true, axis=1)` — the argmax of each
label row, i.e. the true class index when the labels are one-hot. -/
def platt_targets (Y : List (List ℚ)) : List ℕ :=
  Y.map argmaxIdx

/-- Modelled from the claim wording of C5: the 0/1 indicator that the index
of the maximum predicted probability equals the true class label.  Used only
to compare against the code's `platt_targets`. -/
def plattTargetsClaimed (P Y : List (List ℚ)) : List ℕ :=
  (P.zip Y).map (fun py => if argmaxIdx py.1 = argmaxIdx py.2 then 1 else 0)

theorem foldl_max_init_le (l : List ℚ) : ∀ a : ℚ, a ≤ l.foldl max a := by
  induction l with
  | nil => intro a; simp
  | cons x t ih =>
    intro a
    calc a ≤ max a x := le_max_left a x
      _ ≤ (x :: t).foldl max a := by simpa using ih (max a x)

theorem le_foldl_max (l : List ℚ) : ∀ a v : ℚ, v ∈ l → v ≤ l.foldl max a := by
  induction l with
  | nil => intro a v hv; cases hv
  | cons x t ih =>
    intro a v hv
    rcases List.mem_cons.mp hv with rfl | hvt
    · calc v ≤ max a v := le_max_right a v
        _ ≤ (v :: t).foldl max a := by simpa using foldl_max_init_le t (max a v)
    · simpa using ih (max a x) v hvt

theorem foldl_max_mem (l : List ℚ) : ∀ a : ℚ, l.foldl max a = a ∨ l.foldl max a ∈ l := by
  induction l with
  | nil => intro a; left; rfl
  | cons x t ih =>
    intro a
    have hfc : (x :: t).foldl max a = t.foldl max (max a x) := rfl
    rcases ih (max a x) with h | h
    · rcases max_choice a x with hax | hax
      · left; rw [hfc, h, hax]
      · right; rw [hfc, h, hax]; exact List.mem_cons_self x t
    · right; rw [hfc]; exact List.mem_cons_of_mem x h

theorem le_npMaxRow (r : List ℚ) (v : ℚ) (hv : v ∈ r) : v ≤ npMaxRow r := by
  rcases r with _ | ⟨h, t⟩
  · cases hv
  · rcases List.mem_cons.mp hv with rfl | hvt
    · exact foldl_max_init_le t v
    · exact le_foldl_max t h v hvt

theorem npMaxRow_mem (r : List ℚ) (h : r ≠ []) : npMaxRow r ∈ r := by
  rcases r with _ | ⟨x, t⟩
  · exact absurd rfl h
  · rcases foldl_max_mem t x with h1 | h1
    · rw [npMaxRow, h1]; simp
    · exact List.mem_cons_of_mem x h1

theorem npMaxRow_one_hot (r : List ℚ) (h1 : (1 : ℚ) ∈ r)
    (h01 : ∀ v ∈ r, v = 0 ∨ v = 1) : npMaxRow r = 1 := by
  have hub := le_npMaxRow r 1 h1
  rcases h01 (npMaxRow r) (npMaxRow_mem r (List.ne_nil_of_mem h1)) with h | h
  · rw [h] at hub; linarith
  · exact h

/-- Claim C5 (amended): the binary target the code hands to the logistic
regression is the argmax of each label row — the true class index for
one-hot labels, i.e. the position of the row's 1 — not the
prediction-correctness indicator the claim describes (the feature is the
per-row maximum, `platt_features`). -/
theorem C5_platt_target_is_class_index (Y : List (List ℚ))
    (hY : ∀ r ∈ Y, (1 : ℚ) ∈ r ∧ ∀ v ∈ r, v = 0 ∨ v = 1) :
    platt_targets Y = Y.map (fun r => r.findIdx (fun v => decide (v = 1))) := by
  unfold platt_targets
  apply List.map_congr_left
  intro r hr
  unfold argmaxIdx
  rw [npMaxRow_one_hot r (hY r hr).1 (hY r hr).2]

/-- Witness for C5 on the one-hot labels [[0, 1], [1, 0]]. -/
theorem C5_witness :
    (∀ r ∈ [[(0 : ℚ), 1], [1, 0]], (1 : ℚ) ∈ r ∧ ∀ v ∈ r, v = 0 ∨ v = 1) ∧
    platt_targets [[(0 : ℚ), 1], [1, 0]] =
      [[(0 : ℚ), 1], [1, 0]].map (fun r => r.findIdx (fun v => decide (v = 1))) := by
  have hY : ∀ r ∈ [[(0 : ℚ), 1], [1, 0]], (1 : ℚ) ∈ r ∧ ∀ v ∈ r, v = 0 ∨ v = 1 := by
    intro r hr
    fin_cases hr <;> refine ⟨by norm_num, ?_⟩ <;>
      (intro v hv; fin_cases hv <;> norm_num)
  exact ⟨hY, C5_platt_target_is_class_index [[(0 : ℚ), 1], [1, 0]] hY⟩

/-- Claim C5, counterexample to the claim as stated: on probabilities
[[0.9, 0.1]] and one-hot labels [[1, 0]] the prediction is correct, so the
claimed correctness target is [1]; the code fits against
np.argmax(labels) = [0] instead. -/
theorem C5_cex :
    platt_targets [[(1 : ℚ), 0]] = [0] ∧
    plattTargetsClaimed [[(9 : ℚ)/10, 1/10]] [[(1 : ℚ), 0]] = [1] ∧
    platt_targets [[(1 : ℚ), 0]] ≠
      plattTargetsClaimed [[(9 : ℚ)/10, 1/10]] [[(1 : ℚ), 0]] := by
  refine ⟨?_, ?_, ?_⟩ <;>
    norm_num [platt_targets, plattTargetsClaimed, argmaxIdx, npMaxRow,
      List.findIdx_cons, List.foldl_cons, List.foldl_nil]

/-- NumPy value as passed for labels inside the calibration module: the
orchestrator produces a 1-D vector of class indices (line 52) while the
metric code indexes labels as a 2-D matrix. -/
inductive NpArray where
  | one (v : List ℚ)
  | two (m : List (List ℚ))
  deriving Repr, DecidableEq

/-- Column access `a[:, i]`.  On a 1-D array NumPy raises an IndexError
(too many indices), modelled by `none`; on a 2-D array with the column in
range it is the list of i-th entries. -/
def npCol : NpArray → ℕ → Option (List ℚ)
  | NpArray.one _, _ => none
  | NpArray.two m, i =>
      if ∀ r ∈ m, i < r.length then some (m.map (fun r => r.getD i 0)) else none

/-- sklearn brier_score_loss on a 0/1 target column and a probability
column: mean over samples of the squared difference. -/
def brier_score_loss (y p : List ℚ) : ℚ :=
  ((y.zip p).map (fun q => (q.1 - q.2) ^ 2)).sum / (y.length : ℚ)

/-- Per-class Brier loop of evaluate_calibration (source lines 113-120):
for each class i below `y_pred_proba.shape[1]` it computes
`brier_score_loss(y_true[:, i], y_pred_proba[:, i])`.  The column accesses
are fallible, so the loop is an Option-monadic map. -/
def evaluate_calibration_brier (P : List (List ℚ)) (y_true : NpArray) :
    Option (List ℚ) :=
  (List.range (P.headD []).length).mapM (fun i => do
    let yc ← npCol y_true i
    let pc ← npCol (NpArray.two P) i
    pure (brier_score_loss yc pc))

/-- Claim C4: the code violates the claim.  The orchestrator passes the 1-D
argmax-reduced index vector straight into evaluate_calibration, which
indexes it as `y_true[:, i]`; no one-hot conversion exists anywhere, so the
column access fails (IndexError) on the very first class. -/
theorem C4_index_labels_never_converted :
    prepare_labels [[(1 : ℚ), 0]] = [0] ∧
    evaluate_calibration_brier [[(9 : ℚ)/10, 1/10]]
      (NpArray.one ((prepare_labels [[(1 : ℚ), 0]]).map (fun k => (k : ℚ)))) = none := by
  constructor
  · norm_num [prepare_labels, argmaxIdx, npMaxRow, List.findIdx_cons,
      List.foldl_cons, List.foldl_nil]
  · rfl

/-! ## Orchestrator state (claim C6) -/

/-- The calibration_params dict initialized in `__init__`
(source lines 30-34). -/
structure CalibrationParams where
  temperature : ℚ
  platt_a : ℚ
  platt_b : ℚ
  deriving Repr, DecidableEq

/-- Mutable calibrator state: the parameter record plus the
calibration_history list created at line 35.  History entries are modelled
as parameter snapshots; their shape is irrelevant because no code path ever
constructs one. -/
structure CalibState where
  calibration_params : CalibrationParams
  calibration_history : List CalibrationParams
  deriving Repr, DecidableEq

/-- State effect of calibrate_model (source lines 260-319), with the fitted
values abstracted as inputs: the method assigns temperature (line 278),
platt_a and platt_b (lines 287-288), and contains no operation on
calibration_history. -/
def calibrate_model_state (s : CalibState) (optimal_temp pa pb : ℚ) : CalibState :=
  let s1 := { s with calibration_params :=
    { s.calibration_params with temperature := optimal_temp } }
  let s2 := { s1 with calibration_params :=
    { s1.calibration_params with platt_a := pa } }
  let s3 := { s2 with calibration_params :=
    { s2.calibration_params with platt_b := pb } }
  s3

/-- Claim C6: the code violates the claim.  A calibrate run leaves
calibration_history exactly as it was — in particular it does not grow by
one snapshot.  (The list stays at its initial value [] for the life of the
object and is persisted empty.) -/
theorem C6_history_never_appended (s : CalibState) (t a b : ℚ) :
    (calibrate_model_state s t a b).calibration_history = s.calibration_history ∧
    (calibrate_model_state s t a b).calibration_history.length ≠
      s.calibration_history.length + 1 := by
  refine ⟨rfl, ?_⟩
  simp [calibrate_model_state]

/-! ## Persistence (claim C8) -/

/-- Streaming behaviour of json.dump: the serialized document is a sequence
of chunks written in order; an exception after k chunks leaves exactly the
first k written, with the exception propagated (flag false). -/
def json_dump_chunks (chunks : List String) (failAt : Option ℕ) :
    List String × Bool :=
  match failAt with
  | none => (chunks, true)
  | some k => (chunks.take k, false)

/-- save_calibration_params (source lines 246-258) is
`with open(save_path, 'w') as f: json.dump(calibration_data, f, indent=2)`:
opening with mode w truncates the destination before any byte of the new
document is produced, and the dump then streams into the same path.  There
is no temp file and no rename; the prior contents (third argument) are
discarded unconditionally.  A file is `none` when absent, otherwise the
chunk sequence it holds. -/
def save_calibration_params (chunks : List String) (failAt : Option ℕ)
    (_dest : Option (List String)) : Option (List String) × Bool :=
  let afterOpen : List String := []
  let dumped := json_dump_chunks chunks failAt
  (some (afterOpen ++ dumped.1), dumped.2)

/-- Claim C8 (amended): a serialization failure after k of the chunks leaves
the destination holding exactly those k chunks — a strictly partial prefix
of the intended document — and the previously persisted contents are
destroyed by the truncating open; the failure flag is propagated. -/
theorem C8_failed_write_leaves_partial (chunks : List String) (k : ℕ)
    (dest : Option (List String)) (hk : k < chunks.length) :
    save_calibration_params chunks (some k) dest = (some (chunks.take k), false) ∧
    chunks.take k ++ chunks.drop k = chunks ∧
    chunks.take k ≠ chunks := by
  refine ⟨rfl, List.take_append_drop k chunks, ?_⟩
  intro h
  have hlen := congrArg List.length h
  rw [List.length_take] at hlen
  omega

/-- Witness for C8 with a two-chunk document failing after the first chunk. -/
theorem C8_witness :
    1 < (["ab", "cd"] : List String).length ∧
    (save_calibration_params ["ab", "cd"] (some 1) (some ["old"]) =
        (some (["ab", "cd"].take 1), false) ∧
      ["ab", "cd"].take 1 ++ ["ab", "cd"].drop 1 = ["ab", "cd"] ∧
      ["ab", "cd"].take 1 ≠ ["ab", "cd"]) :=
  ⟨by norm_num,
   C8_failed_write_leaves_partial ["ab", "cd"] 1 (some ["old"]) (by norm_num)⟩

/-- Claim C8, counterexample to the claim as stated: after a failure
mid-serialization the destination holds neither the previous document nor
the complete new document. -/
theorem C8_cex :
    (save_calibration_params ["ab", "cd"] (some 1) (some ["old"])).1 ≠ some ["old"] ∧
    (save_calibration_params ["ab", "cd"] (some 1) (some ["old"])).1 ≠ some ["ab", "cd"] ∧
    (save_calibration_params ["ab", "cd"] (some 1) (some ["old"])).2 = false := by
  refine ⟨?_, ?_, rfl⟩ <;> simp [save_calibration_params, json_dump_chunks]

/-- Claim C3, counterexample to the claim as stated: [[0.9, 0.1]] is a valid
probability matrix (row sums to 1, entries in [0,1]) and [[0, 1]] a valid
aligned one-hot label, yet the returned ECE is 9/5 > 1. -/
theorem C3_cex :
    ([[(9 : ℚ)/10, 1/10]].map List.sum) = [1] ∧
    _calculate_ece 15 [[9/10, 1/10]] [[0, 1]] = 9/5 ∧
    ¬(_calculate_ece 15 [[9/10, 1/10]] [[0, 1]] ≤ 1) := by
  refine ⟨by norm_num, ?_, ?_⟩ <;>
    norm_num [_calculate_ece, flatPairs, binMembers, inBin, bin_lower,
      bin_upper, List.range_succ, List.filter_cons, List.filter_nil,
      List.filter_append, List.foldl_append, List.foldl_cons, List.foldl_nil,
      decide_eq_true_eq, abs_of_pos]

/-! ## Temperature scaling over the reals (claims C7, C9, C10) -/

/-- The additive floor 1e-8 used at source lines 63, 67 and 323. -/
noncomputable def epsFloor : ℝ := 1 / 10 ^ 8

/-- Row maximum over the reals (np.max with keepdims, source line 187). -/
noncomputable def npMaxRowR : List ℝ → ℝ
  | [] => 0
  | h :: t => t.foldl max h

/-- One row of _softmax (source lines 185-188): subtract the row max,
exponentiate, and normalize by the row sum of the exponentials. -/
noncomputable def softmaxRow (x : List ℝ) : List ℝ :=
  (x.map (fun v => Real.exp (v - npMaxRowR x))).map
    (fun e => e / (x.map (fun v => Real.exp (v - npMaxRowR x))).sum)

/-- Embedding of _softmax with axis=1 (source lines 185-188). -/
noncomputable def _softmax (M : List (List ℝ)) : List (List ℝ) :=
  M.map softmaxRow

/-- Embedding of _apply_temperature_scaling (source lines 321-324):
`softmax(log(p + 1e-8) / T, axis=1)`. -/
noncomputable def _apply_temperature_scaling (P : List (List ℝ)) (T : ℝ) :
    List (List ℝ) :=
  _softmax (P.map (fun row => row.map (fun v => Real.log (v + epsFloor) / T)))

theorem sum_map_div (l : List ℝ) (f : ℝ → ℝ) (c : ℝ) :
    (l.map (fun v => f v / c)).sum = (l.map f).sum / c := by
  induction l with
  | nil => simp
  | cons x t ih => simp [ih, add_div]

/-- The stabilizing row-max subtraction cancels: the softmax of a row equals
the exponentials normalized by their plain sum. -/
theorem softmaxRow_eq (x : List ℝ) :
    softmaxRow x = x.map (fun v => Real.exp v / (x.map Real.exp).sum) := by
  have he : Real.exp (npMaxRowR x) ≠ 0 := Real.exp_ne_zero _
  unfold softmaxRow
  simp only [Real.exp_sub]
  rw [sum_map_div x Real.exp (Real.exp (npMaxRowR x)), List.map_map]
  apply List.map_congr_left
  intro v _
  simp only [Function.comp]
  rcases eq_or_ne (x.map Real.exp).sum 0 with hs | hs
  · simp [hs]
  · field_simp

/-- On a non-empty row the softmax output is a probability vector. -/
theorem softmaxRow_is_prob (x : List ℝ) (hx : x ≠ []) :
    (∀ v ∈ softmaxRow x, 0 ≤ v ∧ v ≤ 1) ∧ (softmaxRow x).sum = 1 := by
  rw [softmaxRow_eq]
  have hpos : ∀ e ∈ x.map Real.exp, 0 < e := by
    intro e he
    obtain ⟨v, _, rfl⟩ := List.mem_map.mp he
    exact Real.exp_pos v
  have hne : x.map Real.exp ≠ [] := by
    simpa using hx
  have hS : 0 < (x.map Real.exp).sum := List.sum_pos _ hpos hne
  constructor
  · intro v hv
    obtain ⟨w, hw, rfl⟩ := List.mem_map.mp hv
    constructor
    · exact div_nonneg (Real.exp_pos w).le hS.le
    · rw [div_le_one hS]
      exact List.single_le_sum (fun e he => (hpos e he).le) _
        (List.mem_map_of_mem Real.exp hw)
  · rw [sum_map_div x Real.exp _, div_self hS.ne']

/-- Claim C10: for every matrix of positive entries with non-empty rows and
every temperature T > 0, the matrix returned by _apply_temperature_scaling
is a valid probability matrix: entries in [0, 1] and rows summing to 1. -/
theorem C10_temperature_scaling_valid (P : List (List ℝ)) (T : ℝ)
    (hne : ∀ r ∈ P, r ≠ []) (hpos : ∀ r ∈ P, ∀ v ∈ r, 0 < v) (hT : 0 < T) :
    ∀ r ∈ _apply_temperature_scaling P T,
      (∀ v ∈ r, 0 ≤ v ∧ v ≤ 1) ∧ r.sum = 1 := by
  intro r hr
  unfold _apply_temperature_scaling _softmax at hr
  rw [List.map_map] at hr
  obtain ⟨row, hrow, rfl⟩ := List.mem_map.mp hr
  simp only [Function.comp]
  apply softmaxRow_is_prob
  have := hne row hrow
  simpa using this

/-- Witness for C10 at the positive matrix [[1/2, 1/2]] and T = 2. -/
theorem C10_witness :
    (∀ r ∈ [[(1 : ℝ)/2, 1/2]], r ≠ []) ∧
    (∀ r ∈ [[(1 : ℝ)/2, 1/2]], ∀ v ∈ r, 0 < v) ∧
    (0 : ℝ) < 2 ∧
    (∀ r ∈ _apply_temperature_scaling [[(1 : ℝ)/2, 1/2]] 2,
      (∀ v ∈ r, 0 ≤ v ∧ v ≤ 1) ∧ r.sum = 1) := by
  have hne : ∀ r ∈ [[(1 : ℝ)/2, 1/2]], r ≠ [] := by
    intro r hr; fin_cases hr; simp
  have hpos : ∀ r ∈ [[(1 : ℝ)/2, 1/2]], ∀ v ∈ r, 0 < v := by
    intro r hr; fin_cases hr; intro v hv; fin_cases hv <;> norm_num
  have hT : (0 : ℝ) < 2 := by norm_num
  exact ⟨hne, hpos, hT,
    C10_temperature_scaling_valid [[(1 : ℝ)/2, 1/2]] 2 hne hpos hT⟩

theorem sum_map_add_const (l : List ℝ) (c : ℝ) :
    (l.map (fun v => v + c)).sum = l.sum + (l.length : ℝ) * c := by
  induction l with
  | nil => simp
  | cons x t ih =>
    simp only [List.map_cons, List.sum_cons, List.length_cons, ih]
    push_cast
    ring

/-- At T = 1 the temperature-scaling transform is exactly the rows of
p + 1e-8 renormalized (shared by the C9 theorem and counterexample). -/
theorem apply_temperature_one (P : List (List ℝ))
    (h0 : ∀ r ∈ P, ∀ v ∈ r, 0 ≤ v) :
    _apply_temperature_scaling P 1 =
      P.map (fun r => r.map (fun v =>
        (v + epsFloor) / ((r.map (fun w => w + epsFloor)).sum))) := by
  unfold _apply_temperature_scaling _softmax
  rw [List.map_map]
  apply List.map_congr_left
  intro r hr
  simp only [Function.comp]
  have heps : (0 : ℝ) < epsFloor := by norm_num [epsFloor]
  have hmap : ((r.map (fun v => Real.log (v + epsFloor) / 1)).map Real.exp) =
      r.map (fun w => w + epsFloor) := by
    rw [List.map_map]
    apply List.map_congr_left
    intro v hv
    simp only [Function.comp, div_one]
    exact Real.exp_log (by linarith [h0 r hr v hv])
  rw [softmaxRow_eq, hmap, List.map_map]
  apply List.map_congr_left
  intro v hv
  simp only [Function.comp, div_one]
  rw [Real.exp_log (by linarith [h0 r hr v hv])]

/-- Claim C9 (amended): at T = 1 the transform returns exactly each row of
p + 1e-8 renormalized; each entry then agrees with p within C * 1e-8 (C the
row length) for valid probability rows — but not always within 1e-8 itself
(see the counterexample). -/
theorem C9_temperature_one_floor (P : List (List ℝ))
    (h0 : ∀ r ∈ P, ∀ v ∈ r, 0 ≤ v) (h1 : ∀ r ∈ P, r.sum = 1) :
    _apply_temperature_scaling P 1 =
      P.map (fun r => r.map (fun v =>
        (v + epsFloor) / ((r.map (fun w => w + epsFloor)).sum))) ∧
    ∀ r ∈ P, ∀ v ∈ r,
      |(v + epsFloor) / ((r.map (fun w => w + epsFloor)).sum) - v| ≤
        (r.length : ℝ) * epsFloor := by
  refine ⟨apply_temperature_one P h0, ?_⟩
  intro r hr v hv
  have heps : (0 : ℝ) < epsFloor := by norm_num [epsFloor]
  have hC1 : 1 ≤ (r.length : ℝ) := by
    have : 0 < r.length := List.length_pos.mpr (List.ne_nil_of_mem hv)
    exact_mod_cast this
  have hv0 : 0 ≤ v := h0 r hr v hv
  have hv1 : v ≤ 1 := by
    have hsum := List.single_le_sum (fun y hy => h0 r hr y hy) v hv
    rw [h1 r hr] at hsum
    exact hsum
  have hS : (r.map (fun w => w + epsFloor)).sum =
      1 + (r.length : ℝ) * epsFloor := by
    rw [sum_map_add_const, h1 r hr]
  rw [hS]
  set C := (r.length : ℝ) with hCdef
  have hC0 : 0 ≤ C := by linarith
  have hD : (0 : ℝ) < 1 + C * epsFloor := by nlinarith
  have key : (v + epsFloor) / (1 + C * epsFloor) - v =
      (epsFloor * (1 - v * C)) / (1 + C * epsFloor) := by
    field_simp
    ring
  rw [key, abs_div, abs_of_pos hD, div_le_iff₀ hD]
  rw [abs_mul, abs_of_pos heps]
  have h1C : |1 - v * C| ≤ C := by
    rw [abs_le]
    constructor <;> nlinarith
  nlinarith [mul_le_mul_of_nonneg_left h1C heps.le,
    mul_nonneg (mul_nonneg hC0 heps.le) (mul_nonneg hC0 heps.le)]

/-- Witness for C9 at the valid probability matrix [[1/2, 1/2]]. -/
theorem C9_witness :
    (∀ r ∈ [[(1 : ℝ)/2, 1/2]], ∀ v ∈ r, 0 ≤ v) ∧
    (∀ r ∈ [[(1 : ℝ)/2, 1/2]], r.sum = 1) ∧
    (_apply_temperature_scaling [[(1 : ℝ)/2, 1/2]] 1 =
      [[(1 : ℝ)/2, 1/2]].map (fun r => r.map (fun v =>
        (v + epsFloor) / ((r.map (fun w => w + epsFloor)).sum))) ∧
     ∀ r ∈ [[(1 : ℝ)/2, 1/2]], ∀ v ∈ r,
       |(v + epsFloor) / ((r.map (fun w => w + epsFloor)).sum) - v| ≤
         (r.length : ℝ) * epsFloor) := by
  have hA : ∀ r ∈ [[(1 : ℝ)/2, 1/2]], ∀ v ∈ r, 0 ≤ v := by
    intro r hr; fin_cases hr; intro v hv; fin_cases hv <;> norm_num
  have hB : ∀ r ∈ [[(1 : ℝ)/2, 1/2]], r.sum = 1 := by
    intro r hr; fin_cases hr; norm_num
  exact ⟨hA, hB, C9_temperature_one_floor [[(1 : ℝ)/2, 1/2]] hA hB⟩

/-- Claim C9, counterexample to the claim as stated: on the valid one-hot
probability matrix [[1, 0, 0]], the first transformed entry differs from the
input by 2e-8 / (1 + 3e-8), which exceeds the 1e-8 tolerance. -/
theorem C9_cex :
    epsFloor <
      |(((_apply_temperature_scaling [[(1 : ℝ), 0, 0]] 1).headD []).headD 0) - 1| := by
  have h0 : ∀ r ∈ [[(1 : ℝ), 0, 0]], ∀ v ∈ r, 0 ≤ v := by
    intro r hr; fin_cases hr; intro v hv; fin_cases hv <;> norm_num
  rw [apply_temperature_one _ h0]
  simp only [List.map_cons, List.map_nil, List.headD_cons, List.sum_cons,
    List.sum_nil]
  have hsum : (1 : ℝ) + epsFloor + (0 + epsFloor + (0 + epsFloor + 0)) =
      1 + 3 * epsFloor := by ring
  rw [hsum]
  have hD : (0 : ℝ) < 1 + 3 * epsFloor := by norm_num [epsFloor]
  have key : ((1 : ℝ) + epsFloor) / (1 + 3 * epsFloor) - 1 =
      -(2 * epsFloor / (1 + 3 * epsFloor)) := by
    field_simp
    ring
  rw [key, abs_neg,
    abs_of_pos (show (0 : ℝ) < 2 * epsFloor / (1 + 3 * epsFloor) by
      norm_num [epsFloor]),
    lt_div_iff₀ hD]
  norm_num [epsFloor]

/-! ## Temperature fit and its missing input validation (claim C7) -/

/-- np.mean: NaN (modelled none) on an empty array, otherwise sum/length. -/
noncomputable def npMean (l : List ℝ) : Option ℝ :=
  if l.isEmpty then none else some (l.sum / (l.length : ℝ))

/-- The inner objective of temperature_scaling (source lines 61-68):
NLL(T) = -mean over samples of the label-weighted log of the
temperature-rescaled softmax (+1e-8).  Undefined (NaN) exactly when the
dataset is empty. -/
noncomputable def objective (P Y : List (List ℝ)) (T : ℝ) : Option ℝ :=
  (npMean ((Y.zip ((P.map (fun row => row.map
      (fun v => Real.log (v + epsFloor) / T))).map softmaxRow)).map
    (fun ys => ((ys.1.zip ys.2).map
      (fun ab => ab.1 * Real.log (ab.2 + epsFloor))).sum))).map (fun m => -m)

/-- temperature_scaling (source lines 57-75): builds the objective and hands
it directly to the bounded 1-D optimizer (scipy.optimize.minimize, an
external collaborator modelled as a function argument), returning whatever
the optimizer yields.  The source contains no shape or emptiness check and
no error path: the return type has no failure branch at all. -/
noncomputable def temperature_scaling (minimize : (ℝ → Option ℝ) → ℝ)
    (P Y : List (List ℝ)) : ℝ :=
  minimize (objective P Y)

/-- Claim C7 (amended): on the empty dataset the NLL objective is undefined
(NaN) at every temperature, yet temperature_scaling performs no validation:
it still invokes the optimizer on that everywhere-undefined objective and
returns the optimizer's answer instead of failing with an InvalidInput
error. -/
theorem C7_no_empty_check (minimize : (ℝ → Option ℝ) → ℝ) :
    (∀ T, objective [] [] T = none) ∧
    temperature_scaling minimize [] [] = minimize (fun _ => none) := by
  have hobj : ∀ T, objective [] [] T = none := by
    intro T; rfl
  refine ⟨hobj, ?_⟩
  unfold temperature_scaling
  congr 1

/-- Claim C7, counterexample to the claim as stated: with an optimizer that
(like scipy on a NaN objective) returns the initial guess 1.0 when the
objective is undefined there, the fit on the empty dataset returns the
meaningless temperature 1.0 — no InvalidInput failure occurs. -/
theorem C7_cex :
    objective [] [] 1 = none ∧
    temperature_scaling (fun f => if (f 1).isNone then 1 else 0) [] [] = 1 := by
  exact ⟨rfl, rfl⟩
